import Mathlib

/-!
Verification of the algorithmic core of the Smart-Scheduler repository.

Two components are embedded:
* the 0/1-knapsack budget optimizer `knapsackOptimizer` and its
  category-constrained wrapper `constrainedKnapsack`
  (source: `src/unnamed/part_002`);
* the task scheduler `smartScheduling`
  (source: `src/backend/src/utils/algorithms/jobScheduling.js`,
  the "simple and robust" variant, lines 205-300).

JS numbers are modelled as rationals (`ℚ`), JS `undefined`/`null`/`NaN`
in an input field as `none`, and a missing/empty optional string as the
corresponding falsy case of the JS truthiness test that consumes it.
-/

set_option maxHeartbeats 1000000

namespace SmartScheduler

/-! ### Data model of the budget optimizer (`src/unnamed/part_002`) -/

/-- A budget line item (`{cost, value, category}`).  The data-model
invariant of the spec requires `0 ≤ cost` and `0 < value`; theorems carry
those bounds as hypotheses where the JS code relies on them. -/
structure BItem where
  cost : ℚ
  value : ℚ
  category : Option String
deriving DecidableEq, Repr

/-- The optimizer result `{selectedItems, totalCost, totalValue}`.
The `isSelected : true` flag stamped on each selected item is constant and
is not carried in the model. -/
structure OptResult where
  selectedItems : List BItem
  totalCost : ℚ
  totalValue : ℚ
deriving DecidableEq, Repr

/-- `Math.floor(x * 100)`: discretization of an amount to integer cents. -/
def cents (x : ℚ) : ℤ := ⌊x * 100⌋

/-- `Math.floor(item.cost * 100)` as a natural number (the DP only indexes
with it for non-negative costs, the data-model invariant). -/
def costCents (it : BItem) : ℕ := (cents it.cost).toNat

/-- One row update of the DP table (the inner loop of the source):
`dp[i][w] = itemCost ≤ w ? max(item.value + dp[i-1][w-itemCost], dp[i-1][w]) : dp[i-1][w]`. -/
def dpStep (row : ℕ → ℚ) (it : BItem) : ℕ → ℚ := fun w =>
  if costCents it ≤ w then max (it.value + row (w - costCents it)) (row w)
  else row w

/-- Row `i` of the DP table as a function of the capacity `w`:
`dpRow (items.take i) w` is `dp[i][w]` of the source (row `0` is all
zeroes, each item updates the previous row). -/
def dpRow (items : List BItem) : ℕ → ℚ := items.foldl dpStep (fun _ => 0)

/-- The backtracking loop (`for (let i = items.length; i > 0; i--)`),
written as a recursion over the reversed item list: step `i` compares
`dp[i][w]` with `dp[i-1][w]`; on a mismatch item `i-1` is pushed and `w`
drops by its cost in cents.  The result list is in JS push order
(later-indexed items first). -/
def selectGo : List BItem → ℕ → List BItem
  | [], _ => []
  | it :: revRest, w =>
    if dpStep (dpRow revRest.reverse) it w = dpRow revRest.reverse w then
      selectGo revRest w
    else
      it :: selectGo revRest (w - costCents it)

/-- `selectedItems` reconstructed from the full table. -/
def selectItems (items : List BItem) (budget : ℕ) : List BItem :=
  selectGo items.reverse budget

/-- Sum of the actual (un-discretized) costs of a list of items. -/
def costSum (l : List BItem) : ℚ := (l.map BItem.cost).sum

/-- Sum of the values of a list of items. -/
def valueSum (l : List BItem) : ℚ := (l.map BItem.value).sum

/-- Sum of the discretized (cent) costs of a list of items. -/
def centSum (l : List BItem) : ℕ := (l.map costCents).sum

/-- Total of the sub-cent fractions truncated from each item's cost by the
cent discretization. -/
def fracSum (l : List BItem) : ℚ :=
  (l.map fun it => it.cost - (cents it.cost : ℚ) / 100).sum

/-- `knapsackOptimizer(items, totalBudget)` (source lines 13-80): empty
result on degenerate input, otherwise exact 0/1 knapsack over the budget
discretized to cents; `totalCost` re-sums the selected items' actual
costs and `totalValue` is read off the DP table. -/
def knapsackOptimizer (items : List BItem) (totalBudget : ℚ) : OptResult :=
  if items = [] ∨ totalBudget ≤ 0 then ⟨[], 0, 0⟩
  else
    let budget : ℕ := (cents totalBudget).toNat
    let sel := selectItems items budget
    { selectedItems := sel
      totalCost := costSum sel
      totalValue := dpRow items budget }

/-! ### Constrained knapsack (`src/unnamed/part_002`, lines 89-159) -/

/-- JS truthiness of the optional `category` field: `undefined`/`null` and
the empty string are falsy and behave like "no category". -/
def truthyCat : Option String → Option String
  | none => none
  | some s => if s = "" then none else some s

/-- `categoryTotals`-style per-category spend of a selection: total cost of
the items whose truthy category equals `cat` (items with a falsy category
are never tracked, mirroring `if (item.category)`). -/
def catSpend (sel : List BItem) (cat : String) : ℚ :=
  ((sel.filter fun it => truthyCat it.category = some cat).map BItem.cost).sum

/-- Spend of a category read off directly from the items' `category` field
(no truthiness filter); used to state spec-level cap properties. -/
def rawCatSpend (sel : List BItem) (cat : String) : ℚ :=
  ((sel.filter fun it => it.category = some cat).map BItem.cost).sum

/-- The `constraintsSatisfied` check: no category of the constraints map
may have its tracked spend exceed `totalBudget * fraction`.  Constraint
maps are association lists with (JS-object) distinct keys. -/
def constraintsSatisfied (cons : List (String × ℚ)) (totalBudget : ℚ)
    (sel : List BItem) : Bool :=
  cons.all fun cf => decide (catSpend sel cf.1 ≤ totalBudget * cf.2)

/-- The value/cost ratio of the greedy sort, `item.value / item.cost`,
under JS division semantics: a zero cost gives `Infinity`, modelled as `⊤`
in `WithTop ℚ`.  (Faithful on the data-model domain `0 < value`; the JS
`0/0 = NaN` and `-v/0 = -Infinity` cases lie outside that domain.) -/
def jsRatio (it : BItem) : WithTop ℚ :=
  if it.cost = 0 then ⊤ else ((it.value / it.cost : ℚ) : WithTop ℚ)

/-- "`a` may come before `b`" for the comparator
`(a, b) => (b.value / b.cost) - (a.value / a.cost)` (descending ratio;
a `NaN` comparison of two infinite ratios counts as a tie, which is how
ECMAScript treats a `NaN` comparator result). -/
def ratioRel (a b : BItem) : Prop := jsRatio b ≤ jsRatio a

instance : DecidableRel ratioRel := fun a b =>
  inferInstanceAs (Decidable (jsRatio b ≤ jsRatio a))

instance : IsTotal BItem ratioRel := ⟨fun a b => le_total (jsRatio b) (jsRatio a)⟩

instance : IsTrans BItem ratioRel := ⟨fun _ _ _ hab hbc => le_trans hbc hab⟩

/-- The cap test of the greedy loop,
`item.category && constraints[item.category] &&
 categorySpent[item.category] + item.cost > maxAllowed`:
both the category and the looked-up fraction must be truthy (a fraction of
`0` is falsy) for the skip to fire. -/
def greedyBlocked (cons : List (String × ℚ)) (totalBudget : ℚ)
    (spent : String → ℚ) (it : BItem) : Bool :=
  match truthyCat it.category with
  | some cat =>
    match cons.lookup cat with
    | some f =>
      if f = 0 then false else decide (spent cat + it.cost > totalBudget * f)
    | none => false
  | none => false

/-- `if (item.category) categorySpent[item.category] += item.cost`. -/
def spendUpdate (spent : String → ℚ) (it : BItem) : String → ℚ :=
  match truthyCat it.category with
  | some cat => fun c => if c = cat then spent c + it.cost else spent c
  | none => spent

/-- The greedy fallback loop (source lines 128-149) over the ratio-sorted
items, carrying the remaining budget and the per-category spend map: an
item that would breach its category's cap is skipped (`continue`),
otherwise it is admitted when its cost fits the remaining budget.  Returns
the selected items and the final remaining budget. -/
def greedyGo (cons : List (String × ℚ)) (totalBudget : ℚ) :
    List BItem → ℚ → (String → ℚ) → List BItem × ℚ
  | [], remaining, _ => ([], remaining)
  | it :: rest, remaining, spent =>
    if greedyBlocked cons totalBudget spent it then
      greedyGo cons totalBudget rest remaining spent
    else if it.cost ≤ remaining then
      let res := greedyGo cons totalBudget rest (remaining - it.cost)
        (spendUpdate spent it)
      (it :: res.1, res.2)
    else greedyGo cons totalBudget rest remaining spent

/-- `constrainedKnapsack(items, totalBudget, constraints)` (source lines
89-159): run the DP; return its result when the constraints map is empty,
nothing was selected, or every cap is met; otherwise re-select greedily by
descending value/cost ratio under the caps. -/
def constrainedKnapsack (items : List BItem) (totalBudget : ℚ)
    (cons : List (String × ℚ)) : OptResult :=
  let result := knapsackOptimizer items totalBudget
  if cons = [] ∨ result.selectedItems = [] then result
  else if constraintsSatisfied cons totalBudget result.selectedItems then result
  else
    let sortedItems := List.insertionSort ratioRel items
    let g := greedyGo cons totalBudget sortedItems totalBudget (fun _ => 0)
    { selectedItems := g.1
      totalCost := totalBudget - g.2
      totalValue := (g.1.map BItem.value).sum }

/-! ### Data model of the scheduler
(`src/backend/src/utils/algorithms/jobScheduling.js`, lines 205-300) -/

/-- A raw task as received (duck-typed record).  `none` in a numeric field
models a missing value or one whose `Number(...)` conversion is `NaN`;
`none` in a string field models `undefined`/`null`. -/
structure RawTask where
  _id : Option String
  title : Option String
  estimatedDuration : Option ℚ
  priority : Option ℚ
deriving DecidableEq, Repr

/-- The simplified task object built by the sanitization loop. -/
structure ValidTask where
  _id : String
  title : String
  estimatedDuration : ℚ
  priority : ℚ
deriving DecidableEq, Repr

/-- An output record `{_id, title, scheduledStart, scheduledEnd,
estimatedDuration}`.  Times are rational minutes on the local calendar
axis (a day is 1440 minutes, midnight of day 0 is 0). -/
structure SchedTask where
  _id : String
  title : String
  scheduledStart : ℚ
  scheduledEnd : ℚ
  estimatedDuration : ℚ
deriving DecidableEq, Repr

/-- Midnight of the day containing time `t`. -/
def startOfDay (t : ℚ) : ℚ := 1440 * ⌊t / 1440⌋

/-- `getHours()` of a time. -/
def hourOf (t : ℚ) : ℤ := ⌊(t - startOfDay t) / 60⌋

/-- `setHours(9, 0, 0, 0)`. -/
def setHours9 (t : ℚ) : ℚ := startOfDay t + 540

/-- `setDate(getDate() + 1)` followed by `setHours(9, 0, 0, 0)`. -/
def nextDay9 (t : ℚ) : ℚ := setHours9 (t + 1440)

/-- `task._id ? task._id.toString() : null` — an absent or empty id is
falsy, so such tasks are skipped. -/
def resolveId : Option String → Option String
  | none => none
  | some s => if s = "" then none else some s

/-- `task.title || 'Untitled Task'`. -/
def resolveTitle : Option String → String
  | none => "Untitled Task"
  | some s => if s = "" then "Untitled Task" else s

/-- `Number(task.estimatedDuration) || 30`: missing or `NaN` (`none`) and
`0` fall back to 30; every other numeric value — including negative ones —
passes through. -/
def resolveDuration : Option ℚ → ℚ
  | none => 30
  | some q => if q = 0 then 30 else q

/-- `Number(task.priority) || 3`. -/
def resolvePriority : Option ℚ → ℚ
  | none => 3
  | some q => if q = 0 then 3 else q

/-- The sanitization loop (source lines 218-242): keep only tasks with a
usable id, resolving title, duration and priority. -/
def sanitize : List RawTask → List ValidTask
  | [] => []
  | t :: rest =>
    match resolveId t._id with
    | none => sanitize rest
    | some id =>
      ⟨id, resolveTitle t.title, resolveDuration t.estimatedDuration,
        resolvePriority t.priority⟩ :: sanitize rest

/-- "`a` may come before `b`" for the comparator
`(a, b) => a.priority - b.priority` (ascending priority). -/
def prioRel (a b : ValidTask) : Prop := a.priority ≤ b.priority

instance : DecidableRel prioRel := fun a b =>
  inferInstanceAs (Decidable (a.priority ≤ b.priority))

/-- The placement loop (source lines 264-296): each task starts at the
cursor and ends after its duration; the cursor then advances past a
15-minute break and rolls to 09:00 next day when it lands at hour ≥ 17. -/
def placeTasks : List ValidTask → ℚ → List SchedTask
  | [], _ => []
  | t :: rest, currentDate =>
    let startTime := currentDate
    let durationMs := if t.estimatedDuration = 0 then 30 else t.estimatedDuration
    let endTime := startTime + durationMs
    let advanced := endTime + 15
    let nextDate := if 17 ≤ hourOf advanced then nextDay9 advanced else advanced
    ⟨t._id, t.title, startTime, endTime, t.estimatedDuration⟩ ::
      placeTasks rest nextDate

/-- `smartScheduling(tasks)` (source lines 205-300) with the wall clock
`new Date()` made an explicit `now` argument: sanitize, sort by ascending
priority (stable), reset the clock to 09:00 of the reference day — and
only then compare `getHours()` with 17, so the "start tomorrow" branch
reads the already-reset hour — then place the tasks sequentially. -/
def smartScheduling (tasks : List RawTask) (now : ℚ) : List SchedTask :=
  if tasks = [] then []
  else
    let validTasks := sanitize tasks
    let sorted := List.insertionSort prioRel validTasks
    let currentDate := setHours9 now
    let start :=
      if 17 ≤ hourOf currentDate then nextDay9 currentDate else currentDate
    placeTasks sorted start

/-- Two half-open output intervals overlap when some instant lies in both. -/
def overlap (a b : SchedTask) : Prop :=
  ∃ x : ℚ, (a.scheduledStart ≤ x ∧ x < a.scheduledEnd) ∧
    (b.scheduledStart ≤ x ∧ x < b.scheduledEnd)

/-! ### Lemmas about the DP core -/

@[simp] lemma valueSum_nil : valueSum [] = 0 := rfl

@[simp] lemma valueSum_cons (it : BItem) (l : List BItem) :
    valueSum (it :: l) = it.value + valueSum l := by simp [valueSum]

@[simp] lemma valueSum_append (l₁ l₂ : List BItem) :
    valueSum (l₁ ++ l₂) = valueSum l₁ + valueSum l₂ := by simp [valueSum]

@[simp] lemma costSum_nil : costSum [] = 0 := rfl

@[simp] lemma costSum_cons (it : BItem) (l : List BItem) :
    costSum (it :: l) = it.cost + costSum l := by simp [costSum]

@[simp] lemma centSum_nil : centSum [] = 0 := rfl

@[simp] lemma centSum_cons (it : BItem) (l : List BItem) :
    centSum (it :: l) = costCents it + centSum l := by simp [centSum]

@[simp] lemma centSum_append (l₁ l₂ : List BItem) :
    centSum (l₁ ++ l₂) = centSum l₁ + centSum l₂ := by simp [centSum]

@[simp] lemma fracSum_nil : fracSum [] = 0 := rfl

@[simp] lemma fracSum_cons (it : BItem) (l : List BItem) :
    fracSum (it :: l) = (it.cost - (cents it.cost : ℚ) / 100) + fracSum l := by
  simp [fracSum]

lemma dpRow_nil (w : ℕ) : dpRow [] w = 0 := rfl

lemma dpRow_append (l : List BItem) (it : BItem) :
    dpRow (l ++ [it]) = dpStep (dpRow l) it := by
  simp [dpRow, List.foldl_append]

lemma dpStep_ge (row : ℕ → ℚ) (it : BItem) (w : ℕ) :
    row w ≤ dpStep row it w := by
  unfold dpStep
  split
  · exact le_max_right _ _
  · exact le_refl _

lemma dpStep_ne {row : ℕ → ℚ} {it : BItem} {w : ℕ}
    (h : dpStep row it w ≠ row w) :
    costCents it ≤ w ∧ dpStep row it w = it.value + row (w - costCents it) := by
  unfold dpStep at h ⊢
  by_cases hc : costCents it ≤ w
  · rw [if_pos hc] at h ⊢
    refine ⟨hc, ?_⟩
    rcases max_choice (it.value + row (w - costCents it)) (row w) with hm | hm
    · exact hm
    · exact absurd hm h
  · rw [if_neg hc] at h
    exact absurd rfl h

/-- Upper-bound half of the DP characterization: the table value dominates
the value of every sub-selection whose discretized cost fits. -/
lemma dp_ub : ∀ (l S : List BItem) (w : ℕ),
    S.Sublist l → centSum S ≤ w → valueSum S ≤ dpRow l w := by
  intro l
  induction l using List.reverseRecOn with
  | nil =>
    intro S w hS _
    rw [List.sublist_nil.mp hS, valueSum_nil, dpRow_nil]
  | append_singleton l it ih =>
    intro S w hS hw
    rw [dpRow_append]
    rcases List.sublist_append_iff.mp hS with ⟨S₁, S₂, rfl, h₁, h₂⟩
    rcases List.sublist_cons_iff.mp h₂ with h₂' | ⟨r, rfl, hr⟩
    · obtain rfl : S₂ = [] := List.sublist_nil.mp h₂'
      have h := ih S₁ w h₁ (by simpa using hw)
      calc valueSum (S₁ ++ []) = valueSum S₁ := by simp
        _ ≤ dpRow l w := h
        _ ≤ dpStep (dpRow l) it w := dpStep_ge _ _ _
    · obtain rfl : r = [] := List.sublist_nil.mp hr
      have hw' : centSum S₁ + costCents it ≤ w := by simpa using hw
      have hcw : costCents it ≤ w := le_trans (Nat.le_add_left _ _) hw'
      have h := ih S₁ (w - costCents it) h₁ (Nat.le_sub_of_add_le hw')
      have hv : valueSum (S₁ ++ [it]) = valueSum S₁ + it.value := by simp
      rw [hv, dpStep, if_pos hcw]
      have : valueSum S₁ + it.value ≤ it.value + dpRow l (w - costCents it) := by
        linarith
      exact le_trans this (le_max_left _ _)

/-- The backtracking loop reconstructs a selection of exactly the DP's
value whose discretized cost fits the capacity. -/
lemma selectGo_spec : ∀ (revl : List BItem) (w : ℕ),
    valueSum (selectGo revl w) = dpRow revl.reverse w ∧
    centSum (selectGo revl w) ≤ w ∧
    (selectGo revl w).reverse.Sublist revl.reverse := by
  intro revl
  induction revl with
  | nil =>
    intro w
    exact ⟨rfl, Nat.zero_le w, List.Sublist.refl _⟩
  | cons it revRest ih =>
    intro w
    rw [selectGo]
    by_cases heq : dpStep (dpRow revRest.reverse) it w = dpRow revRest.reverse w
    · rw [if_pos heq]
      obtain ⟨hv, hc, hs⟩ := ih w
      refine ⟨?_, hc, ?_⟩
      · rw [List.reverse_cons, dpRow_append, heq]
        exact hv
      · rw [List.reverse_cons]
        exact hs.trans (List.sublist_append_left _ _)
    · rw [if_neg heq]
      obtain ⟨hcle, hstep⟩ := dpStep_ne heq
      obtain ⟨hv, hc, hs⟩ := ih (w - costCents it)
      refine ⟨?_, ?_, ?_⟩
      · rw [List.reverse_cons, dpRow_append, hstep, valueSum_cons, hv]
      · rw [centSum_cons]
        calc costCents it + centSum (selectGo revRest (w - costCents it)) ≤
            costCents it + (w - costCents it) := Nat.add_le_add_left hc _
          _ = w := Nat.add_sub_cancel' hcle
      · rw [List.reverse_cons, List.reverse_cons]
        exact hs.append (List.Sublist.refl [it])

lemma knapsackOptimizer_eq_of_pos {items : List BItem} {totalBudget : ℚ}
    (h1 : items ≠ []) (h2 : 0 < totalBudget) :
    knapsackOptimizer items totalBudget =
      ⟨selectItems items (cents totalBudget).toNat,
        costSum (selectItems items (cents totalBudget).toNat),
        dpRow items (cents totalBudget).toNat⟩ := by
  have h : ¬(items = [] ∨ totalBudget ≤ 0) := by
    push_neg
    exact ⟨h1, h2⟩
  rw [knapsackOptimizer, if_neg h]

lemma cents_add_le (x y : ℚ) : cents x + cents y ≤ cents (x + y) := by
  unfold cents
  rw [Int.le_floor]
  push_cast
  have hx := Int.floor_le (x * 100)
  have hy := Int.floor_le (y * 100)
  linarith

lemma centSum_le_cents_costSum :
    ∀ S : List BItem, (∀ it ∈ S, 0 ≤ it.cost) →
      (centSum S : ℤ) ≤ cents (costSum S) := by
  intro S
  induction S with
  | nil => intro _; simp [cents]
  | cons it S ih =>
    intro h
    have hc0 : 0 ≤ cents it.cost :=
      Int.floor_nonneg.mpr (by
        have := h it (List.mem_cons_self it S)
        positivity)
    have hcast : (costCents it : ℤ) = cents it.cost := Int.toNat_of_nonneg hc0
    have ih' := ih fun x hx => h x (List.mem_cons_of_mem _ hx)
    calc (centSum (it :: S) : ℤ) = (costCents it : ℤ) + (centSum S : ℤ) := by
          rw [centSum_cons]; push_cast; ring
      _ = cents it.cost + (centSum S : ℤ) := by rw [hcast]
      _ ≤ cents it.cost + cents (costSum S) := by linarith
      _ ≤ cents (it.cost + costSum S) := cents_add_le _ _
      _ = cents (costSum (it :: S)) := by rw [costSum_cons]

lemma costSum_split :
    ∀ S : List BItem, (∀ it ∈ S, 0 ≤ it.cost) →
      costSum S = (centSum S : ℚ) / 100 + fracSum S := by
  intro S
  induction S with
  | nil => intro _; simp
  | cons it S ih =>
    intro h
    have hc0 : 0 ≤ cents it.cost :=
      Int.floor_nonneg.mpr (by
        have := h it (List.mem_cons_self it S)
        positivity)
    have hcast : ((costCents it : ℕ) : ℚ) = ((cents it.cost : ℤ) : ℚ) := by
      rw [costCents]
      exact_mod_cast congrArg (fun z : ℤ => (z : ℚ)) (Int.toNat_of_nonneg hc0)
    have ih' := ih fun x hx => h x (List.mem_cons_of_mem _ hx)
    rw [costSum_cons, centSum_cons, fracSum_cons, ih']
    push_cast
    rw [hcast]
    ring

/-! ### Claim C1 -/

/-- **C1, counterexample.**  The claim quantifies over *every*
`totalBudget`.  At `totalBudget = 0` the optimizer returns the empty
result (`totalValue = 0`), yet the subset consisting of the single
zero-cost item `{cost: 0, value: 5}` has total cost `0 ≤ 0` and total
value `5 > 0`: a subset within the budget strictly beats the returned
`totalValue`, so the optimality conjunct fails as stated. -/
theorem C1_counterexample :
    ([⟨0, 5, none⟩] : List BItem).Sublist [⟨0, 5, none⟩] ∧
    costSum [⟨0, 5, none⟩] ≤ 0 ∧
    (knapsackOptimizer [⟨0, 5, none⟩] 0).totalValue <
      valueSum [⟨0, 5, none⟩] := by
  refine ⟨List.Sublist.refl _, ?_, ?_⟩
  · norm_num [costSum]
  · norm_num [knapsackOptimizer, valueSum]

/-- **C1, amended.**  For `totalBudget > 0` (the spec's precondition) and
non-negative costs (the data-model invariant): the returned `totalCost`
exceeds `totalBudget` at most by the per-item truncated sub-cent
fractions, and no sub-selection of the input items whose actual total
cost fits the budget has a strictly higher value than the returned
`totalValue`. -/
theorem C1_budget_and_optimality (items : List BItem) (totalBudget : ℚ)
    (hB : 0 < totalBudget) (hc : ∀ it ∈ items, 0 ≤ it.cost) :
    (knapsackOptimizer items totalBudget).totalCost ≤
      totalBudget + fracSum (knapsackOptimizer items totalBudget).selectedItems ∧
    ∀ S : List BItem, S.Sublist items → costSum S ≤ totalBudget →
      valueSum S ≤ (knapsackOptimizer items totalBudget).totalValue := by
  by_cases hne : items = []
  · subst hne
    constructor
    · show (0 : ℚ) ≤ totalBudget + fracSum _
      have : fracSum (knapsackOptimizer [] totalBudget).selectedItems = 0 := by
        rw [knapsackOptimizer]
        simp
      rw [this]
      linarith
    · intro S hS _
      rw [List.sublist_nil.mp hS, valueSum_nil]
      rw [knapsackOptimizer]
      simp
  · rw [knapsackOptimizer_eq_of_pos hne hB]
    obtain ⟨hv, hcent, hsub⟩ :=
      selectGo_spec items.reverse (cents totalBudget).toNat
    rw [List.reverse_reverse] at hv hsub
    have hmem : ∀ it ∈ selectItems items (cents totalBudget).toNat, it ∈ items :=
      fun it h => hsub.subset (List.mem_reverse.mpr h)
    have hbz : 0 ≤ cents totalBudget := Int.floor_nonneg.mpr (by positivity)
    have hbudq : (((cents totalBudget).toNat : ℕ) : ℚ) ≤ totalBudget * 100 := by
      have h1 : (((cents totalBudget).toNat : ℕ) : ℚ) = ((cents totalBudget : ℤ) : ℚ) := by
        exact_mod_cast congrArg (fun z : ℤ => (z : ℚ)) (Int.toNat_of_nonneg hbz)
      rw [h1]
      exact Int.floor_le _
    constructor
    · show costSum (selectItems items (cents totalBudget).toNat) ≤
        totalBudget + fracSum (selectItems items (cents totalBudget).toNat)
      rw [costSum_split _ fun it h => hc it (hmem it h)]
      have h1 : (centSum (selectItems items (cents totalBudget).toNat) : ℚ) ≤
          (((cents totalBudget).toNat : ℕ) : ℚ) := by exact_mod_cast hcent
      have h2 : (centSum (selectItems items (cents totalBudget).toNat) : ℚ) / 100 ≤
          totalBudget := by
        rw [div_le_iff₀ (by norm_num : (0:ℚ) < 100)]
        linarith
      linarith
    · intro S hS hcost
      have hSc : ∀ it ∈ S, 0 ≤ it.cost := fun it h => hc it (hS.subset h)
      have h2 : (centSum S : ℤ) ≤ cents (costSum S) := centSum_le_cents_costSum S hSc
      have h3 : cents (costSum S) ≤ cents totalBudget :=
        Int.floor_le_floor (by nlinarith)
      have h4 : centSum S ≤ (cents totalBudget).toNat := by
        have h5 : (centSum S : ℤ) ≤ ((cents totalBudget).toNat : ℤ) := by
          rw [Int.toNat_of_nonneg hbz]
          exact le_trans h2 h3
        exact_mod_cast h5
      show valueSum S ≤ dpRow items (cents totalBudget).toNat
      exact dp_ub items S _ hS h4

/-- **C1, witness.**  The amended theorem applied to the one-item list
`[{cost: 1, value: 2}]` with budget `1`. -/
theorem C1_budget_and_optimality_witness :
    (knapsackOptimizer [⟨1, 2, none⟩] 1).totalCost ≤
      1 + fracSum (knapsackOptimizer [⟨1, 2, none⟩] 1).selectedItems ∧
    valueSum [⟨1, 2, none⟩] ≤ (knapsackOptimizer [⟨1, 2, none⟩] 1).totalValue := by
  have h := C1_budget_and_optimality [⟨1, 2, none⟩] 1 (by norm_num)
    (by intro it hit; fin_cases hit; norm_num)
  exact ⟨h.1, h.2 [⟨1, 2, none⟩] (List.Sublist.refl _) (by norm_num [costSum])⟩

/-! ### Lemmas about the scheduler's clock arithmetic -/

lemma startOfDay_le (t : ℚ) : startOfDay t ≤ t := by
  unfold startOfDay
  have h := Int.floor_le (t / 1440)
  have h2 : (1440 : ℚ) * (⌊t / 1440⌋ : ℚ) ≤ 1440 * (t / 1440) := by linarith
  have h3 : (1440 : ℚ) * (t / 1440) = t := by ring
  linarith

lemma lt_startOfDay_add (t : ℚ) : t < startOfDay t + 1440 := by
  unfold startOfDay
  have h := Int.lt_floor_add_one (t / 1440)
  have h2 : (1440 : ℚ) * (t / 1440) < 1440 * ((⌊t / 1440⌋ : ℚ) + 1) := by linarith
  have h3 : (1440 : ℚ) * (t / 1440) = t := by ring
  linarith

lemma startOfDay_add_day (t : ℚ) : startOfDay (t + 1440) = startOfDay t + 1440 := by
  unfold startOfDay
  have h : (t + 1440) / 1440 = t / 1440 + 1 := by ring
  rw [h]
  have h2 : ⌊t / 1440 + 1⌋ = ⌊t / 1440⌋ + 1 := by
    exact_mod_cast Int.floor_add_int (t / 1440) 1
  rw [h2]
  push_cast
  ring

lemma nextDay9_eq (t : ℚ) : nextDay9 t = startOfDay t + 1980 := by
  unfold nextDay9 setHours9
  rw [startOfDay_add_day]
  ring

lemma le_nextDay9 (t : ℚ) : t ≤ nextDay9 t := by
  rw [nextDay9_eq]
  have := lt_startOfDay_add t
  linarith

lemma startOfDay_setHours9 (t : ℚ) : startOfDay (setHours9 t) = startOfDay t := by
  unfold setHours9 startOfDay
  have h : (1440 * (⌊t / 1440⌋ : ℚ) + 540) / 1440 = (⌊t / 1440⌋ : ℚ) + 540 / 1440 := by
    ring
  rw [h]
  have h2 : ⌊(⌊t / 1440⌋ : ℚ) + 540 / 1440⌋ = ⌊t / 1440⌋ + ⌊(540 / 1440 : ℚ)⌋ := by
    exact_mod_cast Int.floor_int_add ⌊t / 1440⌋ ((540 : ℚ) / 1440)
  rw [h2]
  norm_num

/-- The "start tomorrow" test of `smartScheduling` reads the hour of the
already-reset clock, which is always 9: the branch is dead code. -/
lemma hourOf_setHours9 (t : ℚ) : hourOf (setHours9 t) = 9 := by
  unfold hourOf
  rw [startOfDay_setHours9]
  have h : setHours9 t - startOfDay t = 540 := by
    unfold setHours9
    ring
  rw [h]
  norm_num

/-- The cursor advance (end + break, with the day rollover) never moves
backwards past the interval end. -/
lemma advance_ge (e : ℚ) :
    e + 15 ≤ if 17 ≤ hourOf (e + 15) then nextDay9 (e + 15) else e + 15 := by
  split
  · exact le_nextDay9 _
  · exact le_refl _

/-! ### Lemmas about the placement loop -/

lemma placeTasks_map_id : ∀ (lst : List ValidTask) (cur : ℚ),
    (placeTasks lst cur).map SchedTask._id = lst.map ValidTask._id := by
  intro lst
  induction lst with
  | nil => intro cur; rfl
  | cons t rest ih => intro cur; simp [placeTasks, ih]

lemma placeTasks_start_ge : ∀ (lst : List ValidTask) (cur : ℚ),
    (∀ t ∈ lst, 0 < t.estimatedDuration) →
    ∀ r ∈ placeTasks lst cur, cur ≤ r.scheduledStart := by
  intro lst
  induction lst with
  | nil => intro cur _ r hr; simp [placeTasks] at hr
  | cons t rest ih =>
    intro cur h r hr
    rw [placeTasks] at hr
    rcases List.mem_cons.mp hr with rfl | hr'
    · exact le_refl _
    · have hd : 0 < t.estimatedDuration := h t (List.mem_cons_self _ _)
      have hdm : (0 : ℚ) <
          (if t.estimatedDuration = 0 then 30 else t.estimatedDuration) := by
        rw [if_neg (ne_of_gt hd)]
        exact hd
      have hadv := advance_ge (cur + (if t.estimatedDuration = 0 then 30
        else t.estimatedDuration))
      have := ih _ (fun x hx => h x (List.mem_cons_of_mem _ hx)) r hr'
      linarith

lemma placeTasks_end_gt : ∀ (lst : List ValidTask) (cur : ℚ),
    (∀ t ∈ lst, 0 < t.estimatedDuration) →
    ∀ r ∈ placeTasks lst cur, r.scheduledStart < r.scheduledEnd := by
  intro lst
  induction lst with
  | nil => intro cur _ r hr; simp [placeTasks] at hr
  | cons t rest ih =>
    intro cur h r hr
    rw [placeTasks] at hr
    rcases List.mem_cons.mp hr with rfl | hr'
    · show cur < cur + _
      have hd : 0 < t.estimatedDuration := h t (List.mem_cons_self _ _)
      rw [if_neg (ne_of_gt hd)]
      linarith
    · exact ih _ (fun x hx => h x (List.mem_cons_of_mem _ hx)) r hr'

lemma placeTasks_pairwise : ∀ (lst : List ValidTask) (cur : ℚ),
    (∀ t ∈ lst, 0 < t.estimatedDuration) →
    (placeTasks lst cur).Pairwise
      (fun a b => a.scheduledEnd ≤ b.scheduledStart) := by
  intro lst
  induction lst with
  | nil => intro cur _; exact List.Pairwise.nil
  | cons t rest ih =>
    intro cur h
    rw [placeTasks]
    refine List.Pairwise.cons ?_ (ih _ fun x hx => h x (List.mem_cons_of_mem _ hx))
    intro b hb
    have hstart := placeTasks_start_ge rest _
      (fun x hx => h x (List.mem_cons_of_mem _ hx)) b hb
    have hadv := advance_ge (cur + (if t.estimatedDuration = 0 then 30
      else t.estimatedDuration))
    show cur + _ ≤ b.scheduledStart
    linarith

/-- An earlier-ending record cannot overlap a later-starting one. -/
lemma noOverlap_of_sep {a b : SchedTask} (h : a.scheduledEnd ≤ b.scheduledStart) :
    ¬ overlap a b ∧ ¬ overlap b a := by
  constructor
  · rintro ⟨x, ⟨_, hxa⟩, ⟨hbx, _⟩⟩
    linarith
  · rintro ⟨x, ⟨hbx, _⟩, ⟨_, hxa⟩⟩
    linarith

/-! ### Lemmas about sanitization and the priority sort -/

lemma resolveDuration_pos {d : Option ℚ} (h : ∀ q, d = some q → 0 ≤ q) :
    0 < resolveDuration d := by
  cases d with
  | none => norm_num [resolveDuration]
  | some q =>
    have hq := h q rfl
    by_cases h0 : q = 0
    · rw [resolveDuration, if_pos h0]
      norm_num
    · rw [resolveDuration, if_neg h0]
      exact lt_of_le_of_ne hq (Ne.symm h0)

lemma sanitize_duration_pos : ∀ (tasks : List RawTask),
    (∀ t ∈ tasks, ∀ q, t.estimatedDuration = some q → 0 ≤ q) →
    ∀ v ∈ sanitize tasks, 0 < v.estimatedDuration := by
  intro tasks
  induction tasks with
  | nil => intro _ v hv; simp [sanitize] at hv
  | cons t rest ih =>
    intro h v hv
    rw [sanitize] at hv
    rcases hid : resolveId t._id with _ | id
    · rw [hid] at hv
      exact ih (fun x hx => h x (List.mem_cons_of_mem _ hx)) v hv
    · rw [hid] at hv
      rcases List.mem_cons.mp hv with rfl | hv'
      · exact resolveDuration_pos (h t (List.mem_cons_self _ _))
      · exact ih (fun x hx => h x (List.mem_cons_of_mem _ hx)) v hv'

/-- A stable sort leaves a list of all-equal priorities untouched. -/
lemma insertionSort_eq_self {p : ℚ} : ∀ {l : List ValidTask},
    (∀ v ∈ l, v.priority = p) → List.insertionSort prioRel l = l := by
  intro l
  induction l with
  | nil => intro _; rfl
  | cons x xs ih =>
    intro h
    rw [List.insertionSort, ih (fun v hv => h v (List.mem_cons_of_mem _ hv))]
    cases xs with
    | nil => rfl
    | cons y ys =>
      rw [List.orderedInsert, if_pos]
      show x.priority ≤ y.priority
      rw [h x (List.mem_cons_self _ _),
        h y (List.mem_cons_of_mem _ (List.mem_cons_self _ _))]

/-! ### Claim C2 -/

/-- **C2, code bug.**  At reference time 18:00 (`now = 1080` minutes,
hour 18 ≥ 17) with one valid task, the code still schedules the first task
at 09:00 of the *reference* day (minute 540), not at 09:00 of the next
day (minute 1980): `setHours(9,0,0,0)` runs before the `getHours() >= 17`
test, so the test always reads hour 9 and the "start tomorrow" branch of
the code (and its comment) is dead. -/
theorem C2_dead_rollover_check :
    smartScheduling [⟨some "a", none, none, none⟩] 1080 =
      [⟨"a", "Untitled Task", 540, 570, 30⟩] ∧
    (17 : ℤ) ≤ hourOf 1080 ∧ (540 : ℚ) ≠ 1980 := by
  refine ⟨?_, ?_, by norm_num⟩
  · norm_num +decide [smartScheduling, sanitize, resolveId, resolveTitle,
      resolveDuration, resolvePriority, List.insertionSort, List.orderedInsert,
      setHours9, startOfDay, hourOf, nextDay9, placeTasks]
  · norm_num [hourOf, startOfDay]

/-! ### Claim C3 -/

/-- **C3, counterexample.**  A kept task whose numeric `estimatedDuration`
is negative (here `-5`) survives the `Number(x) || 30` coercion, so its
record ends before it starts: `scheduledEnd > scheduledStart` fails. -/
theorem C3_counterexample :
    ¬ (∀ r ∈ smartScheduling [⟨some "a", none, some (-5), none⟩] 0,
        r.scheduledStart < r.scheduledEnd) := by
  have houtput : smartScheduling [⟨some "a", none, some (-5), none⟩] 0 =
      [⟨"a", "Untitled Task", 540, 535, -5⟩] := by
    norm_num +decide [smartScheduling, sanitize, resolveId, resolveTitle,
      resolveDuration, resolvePriority, List.insertionSort, List.orderedInsert,
      setHours9, startOfDay, hourOf, nextDay9, placeTasks]
  intro h
  rw [houtput] at h
  have := h _ (List.mem_singleton_self _)
  norm_num at this

/-- **C3, amended.**  On inputs in which no task carries a negative
numeric duration (the data-model domain), the scheduler's output records
are pairwise non-overlapping as half-open intervals and each interval is
non-degenerate (`scheduledEnd > scheduledStart`). -/
theorem C3_no_overlap (tasks : List RawTask) (now : ℚ)
    (h : ∀ t ∈ tasks, ∀ q, t.estimatedDuration = some q → 0 ≤ q) :
    (smartScheduling tasks now).Pairwise
      (fun a b => ¬ overlap a b ∧ ¬ overlap b a) ∧
    ∀ r ∈ smartScheduling tasks now, r.scheduledStart < r.scheduledEnd := by
  by_cases hnil : tasks = []
  · subst hnil
    constructor
    · simp [smartScheduling]
    · intro r hr
      simp [smartScheduling] at hr
  · have hpos : ∀ v ∈ List.insertionSort prioRel (sanitize tasks),
        0 < v.estimatedDuration := by
      intro v hv
      exact sanitize_duration_pos tasks h v
        ((List.perm_insertionSort prioRel (sanitize tasks)).mem_iff.mp hv)
    constructor
    · rw [smartScheduling, if_neg hnil]
      exact (placeTasks_pairwise _ _ hpos).imp fun hsep => noOverlap_of_sep hsep
    · intro r hr
      rw [smartScheduling, if_neg hnil] at hr
      exact placeTasks_end_gt _ _ hpos r hr

/-- **C3, witness.**  Two well-formed tasks at reference time 09:00:
their records neither overlap nor degenerate. -/
theorem C3_no_overlap_witness :
    (smartScheduling [⟨some "a", none, some 60, some 1⟩,
        ⟨some "b", none, none, none⟩] 540).Pairwise
      (fun a b => ¬ overlap a b ∧ ¬ overlap b a) ∧
    ∀ r ∈ smartScheduling [⟨some "a", none, some 60, some 1⟩,
        ⟨some "b", none, none, none⟩] 540,
      r.scheduledStart < r.scheduledEnd := by
  refine C3_no_overlap _ 540 ?_
  intro t ht q hq
  fin_cases ht
  · simp at hq
    rw [← hq]
    norm_num
  · simp at hq

/-! ### Claim C4 -/

/-- **C4, counterexample.**  A kept task with raw duration `-5` resolves
to duration `-5`: `Number(x) || 30` only replaces `0`/`NaN`/missing, so a
negative duration is *not* replaced by the 30-minute fallback and the
resolved duration is not positive. -/
theorem C4_counterexample :
    sanitize [⟨some "a", none, some (-5), none⟩] =
      [⟨"a", "Untitled Task", -5, 3⟩] ∧
    ¬ (0 : ℚ) < -5 ∧ resolveDuration (some (-5)) ≠ 30 := by
  refine ⟨?_, by norm_num, ?_⟩
  · norm_num +decide [sanitize, resolveId, resolveTitle, resolveDuration,
      resolvePriority]
  · norm_num [resolveDuration]

/-- **C4, amended.**  A missing, non-numeric, or zero duration resolves to
the fixed 30-minute fallback and any other numeric value passes through
unchanged; consequently the duration used in placement is positive for
every kept task whenever no raw duration is negative. -/
theorem C4_duration_resolution (tasks : List RawTask)
    (h : ∀ t ∈ tasks, ∀ q, t.estimatedDuration = some q → 0 ≤ q) :
    (∀ v ∈ sanitize tasks, 0 < v.estimatedDuration) ∧
    resolveDuration none = 30 ∧ resolveDuration (some 0) = 30 ∧
    ∀ q : ℚ, q ≠ 0 → resolveDuration (some q) = q := by
  refine ⟨sanitize_duration_pos tasks h, rfl, by norm_num [resolveDuration], ?_⟩
  intro q hq
  rw [resolveDuration, if_neg hq]

/-- **C4, witness.**  The amended theorem applied to a task with raw
duration 45. -/
theorem C4_duration_resolution_witness :
    (∀ v ∈ sanitize [⟨some "x", none, some 45, none⟩],
      0 < v.estimatedDuration) ∧
    resolveDuration none = 30 ∧ resolveDuration (some 0) = 30 ∧
    ∀ q : ℚ, q ≠ 0 → resolveDuration (some q) = q := by
  refine C4_duration_resolution _ ?_
  intro t ht q hq
  fin_cases ht
  simp at hq
  rw [← hq]
  norm_num

/-! ### Claim C10 -/

/-- **C10, confirmed.**  When all kept tasks resolve to the same priority,
the priority sort (a stable insertion into sorted position) is the
identity, so the output records appear in the original input order of the
kept tasks. -/
theorem C10_stable_priority (tasks : List RawTask) (now p : ℚ)
    (h : ∀ v ∈ sanitize tasks, v.priority = p) :
    (smartScheduling tasks now).map SchedTask._id =
      (sanitize tasks).map ValidTask._id := by
  by_cases hnil : tasks = []
  · subst hnil
    rfl
  · rw [smartScheduling, if_neg hnil]
    show (placeTasks (List.insertionSort prioRel (sanitize tasks)) _).map _ = _
    rw [insertionSort_eq_self h, placeTasks_map_id]

/-- **C10, witness.**  Two tasks with defaulted priority 3 keep their
input order. -/
theorem C10_stable_priority_witness :
    (smartScheduling [⟨some "a", none, none, none⟩,
        ⟨some "b", none, none, none⟩] 0).map SchedTask._id =
      (sanitize [⟨some "a", none, none, none⟩,
        ⟨some "b", none, none, none⟩]).map ValidTask._id := by
  refine C10_stable_priority _ 0 3 ?_
  have hs : sanitize [⟨some "a", none, none, none⟩,
      ⟨some "b", none, none, none⟩] =
      [⟨"a", "Untitled Task", 30, 3⟩, ⟨"b", "Untitled Task", 30, 3⟩] := by
    norm_num +decide [sanitize, resolveId, resolveTitle, resolveDuration,
      resolvePriority]
  rw [hs]
  intro v hv
  fin_cases hv <;> rfl

/-! ### Lemmas about the constrained knapsack -/

lemma knapsackOptimizer_selected_mem {items : List BItem} {B : ℚ} :
    ∀ it ∈ (knapsackOptimizer items B).selectedItems, it ∈ items := by
  intro it hit
  rw [knapsackOptimizer] at hit
  split at hit
  · simp at hit
  · obtain ⟨_, _, hsub⟩ := selectGo_spec items.reverse (cents B).toNat
    rw [List.reverse_reverse] at hsub
    exact hsub.subset (List.mem_reverse.mpr hit)

lemma knapsackOptimizer_pos_budget {items : List BItem} {B : ℚ}
    (h : (knapsackOptimizer items B).selectedItems ≠ []) : 0 < B := by
  by_contra hB
  push_neg at hB
  rw [knapsackOptimizer, if_pos (Or.inr hB)] at h
  exact h rfl

lemma truthyCat_eq_iff {c : Option String} {cat : String} (hcat : cat ≠ "") :
    truthyCat c = some cat ↔ c = some cat := by
  cases c with
  | none => simp [truthyCat]
  | some s =>
    by_cases hs : s = ""
    · subst hs
      simp [truthyCat, Ne.symm hcat]
    · simp [truthyCat, hs]

lemma catSpend_eq_rawCatSpend (sel : List BItem) {cat : String} (hcat : cat ≠ "") :
    catSpend sel cat = rawCatSpend sel cat := by
  unfold catSpend rawCatSpend
  have : (sel.filter fun it => truthyCat it.category = some cat) =
      sel.filter fun it => it.category = some cat := by
    apply List.filter_congr
    intro x _
    exact decide_eq_decide.mpr (truthyCat_eq_iff hcat)
  rw [this]

lemma catSpend_empty_str (sel : List BItem) : catSpend sel "" = 0 := by
  unfold catSpend
  have : (sel.filter fun it => truthyCat it.category = some "") = [] := by
    rw [List.filter_eq_nil_iff]
    intro it _
    cases hc : it.category with
    | none => simp [truthyCat]
    | some s =>
      by_cases hs : s = "" <;> simp [truthyCat, hs]
  rw [this]
  rfl

lemma catSpend_cons (it : BItem) (sel : List BItem) (cat : String) :
    catSpend (it :: sel) cat =
      (if truthyCat it.category = some cat then it.cost else 0) + catSpend sel cat := by
  unfold catSpend
  rw [List.filter_cons]
  by_cases hp : truthyCat it.category = some cat
  · simp [hp]
  · simp [hp]

lemma catSpend_cons_of_eq {it : BItem} {sel : List BItem} {cat : String}
    (htc : truthyCat it.category = some cat) :
    catSpend (it :: sel) cat = it.cost + catSpend sel cat := by
  rw [catSpend_cons, if_pos htc]

lemma catSpend_cons_of_ne {it : BItem} {sel : List BItem} {cat : String}
    (htc : truthyCat it.category ≠ some cat) :
    catSpend (it :: sel) cat = catSpend sel cat := by
  rw [catSpend_cons, if_neg htc, zero_add]

lemma rawCatSpend_nonneg {sel : List BItem} (h : ∀ it ∈ sel, 0 ≤ it.cost)
    (cat : String) : 0 ≤ rawCatSpend sel cat := by
  unfold rawCatSpend
  apply List.sum_nonneg
  intro x hx
  obtain ⟨it, hit, rfl⟩ := List.mem_map.mp hx
  exact h it (List.mem_filter.mp hit).1

lemma lookup_of_mem_nodup : ∀ (l : List (String × ℚ)) (a : String) (b : ℚ),
    (l.map Prod.fst).Nodup → (a, b) ∈ l → l.lookup a = some b := by
  intro l
  induction l with
  | nil => intro a b _ h; simp at h
  | cons p rest ih =>
    intro a b hnd hm
    obtain ⟨k, v⟩ := p
    have hnd' : (k :: rest.map Prod.fst).Nodup := by simpa using hnd
    rcases List.mem_cons.mp hm with heq | hm'
    · cases heq
      simp [List.lookup]
    · have hne : a ≠ k := by
        rintro rfl
        have : a ∈ rest.map Prod.fst := by
          have := List.mem_map_of_mem Prod.fst hm'
          simpa using this
        exact (List.nodup_cons.mp hnd').1 this
      rw [List.lookup]
      have hbeq : (a == k) = false := by
        simp [hne]
      rw [hbeq]
      exact ih a b (List.nodup_cons.mp hnd').2 hm'

lemma notBlocked_le {cons : List (String × ℚ)} {B : ℚ} {spent : String → ℚ}
    {it : BItem} {cat : String} {f : ℚ}
    (htc : truthyCat it.category = some cat) (hlk : cons.lookup cat = some f)
    (hf : f ≠ 0) (hb : greedyBlocked cons B spent it = false) :
    spent cat + it.cost ≤ B * f := by
  unfold greedyBlocked at hb
  rw [htc] at hb
  have hb2 : (match List.lookup cat cons with
      | some g => if g = 0 then false else decide (spent cat + it.cost > B * g)
      | none => false) = false := hb
  rw [hlk] at hb2
  have hb3 : (if f = 0 then false
      else decide (spent cat + it.cost > B * f)) = false := hb2
  rw [if_neg hf, decide_eq_false_iff_not] at hb3
  exact not_lt.mp hb3

lemma spendUpdate_none {spent : String → ℚ} {it : BItem}
    (htc : truthyCat it.category = none) : spendUpdate spent it = spent := by
  unfold spendUpdate
  rw [htc]

lemma spendUpdate_self {spent : String → ℚ} {it : BItem} {cat : String}
    (htc : truthyCat it.category = some cat) :
    spendUpdate spent it cat = spent cat + it.cost := by
  unfold spendUpdate
  rw [htc]
  show (if cat = cat then spent cat + it.cost else spent cat) = spent cat + it.cost
  rw [if_pos rfl]

lemma spendUpdate_ne {spent : String → ℚ} {it : BItem} {cat cat' : String}
    (htc : truthyCat it.category = some cat') (hne : cat ≠ cat') :
    spendUpdate spent it cat = spent cat := by
  unfold spendUpdate
  rw [htc]
  show (if cat = cat' then spent cat + it.cost else spent cat) = spent cat
  rw [if_neg hne]

lemma greedyGo_rem_nonneg (cons : List (String × ℚ)) (B : ℚ) :
    ∀ (lst : List BItem) (rem : ℚ) (spent : String → ℚ), 0 ≤ rem →
      0 ≤ (greedyGo cons B lst rem spent).2 := by
  intro lst
  induction lst with
  | nil => intro rem spent h; exact h
  | cons it rest ih =>
    intro rem spent h
    rw [greedyGo]
    by_cases hb : greedyBlocked cons B spent it = true
    · rw [if_pos hb]
      exact ih _ _ h
    · rw [if_neg hb]
      by_cases hcost : it.cost ≤ rem
      · rw [if_pos hcost]
        show 0 ≤ (greedyGo cons B rest (rem - it.cost) (spendUpdate spent it)).2
        exact ih _ _ (by linarith)
      · rw [if_neg hcost]
        exact ih _ _ h

/-- The per-category cap invariant of the greedy loop: if a category of the
constraints map has a truthy (nonzero) fraction and the spend tracked so
far is within its cap, the admitted items keep it within the cap. -/
lemma greedyGo_cat_bound (cons : List (String × ℚ)) (B : ℚ) {cat : String}
    {f : ℚ} (hlk : cons.lookup cat = some f) (hf : f ≠ 0) :
    ∀ (lst : List BItem) (rem : ℚ) (spent : String → ℚ),
      spent cat ≤ B * f →
      spent cat + catSpend (greedyGo cons B lst rem spent).1 cat ≤ B * f := by
  intro lst
  induction lst with
  | nil =>
    intro rem spent h
    rw [greedyGo]
    show spent cat + catSpend [] cat ≤ B * f
    rw [catSpend]
    simpa using h
  | cons it rest ih =>
    intro rem spent h
    rw [greedyGo]
    by_cases hb : greedyBlocked cons B spent it = true
    · rw [if_pos hb]
      exact ih _ _ h
    · rw [if_neg hb]
      rw [Bool.not_eq_true] at hb
      by_cases hcost : it.cost ≤ rem
      · rw [if_pos hcost]
        show spent cat + catSpend
          (it :: (greedyGo cons B rest (rem - it.cost) (spendUpdate spent it)).1)
          cat ≤ B * f
        rcases htc : truthyCat it.category with _ | cat'
        · have hne : truthyCat it.category ≠ some cat := by
            rw [htc]
            simp
          rw [catSpend_cons_of_ne hne, spendUpdate_none htc]
          exact ih (rem - it.cost) spent h
        · by_cases hcc : cat = cat'
          · subst hcc
            have hle : spent cat + it.cost ≤ B * f := notBlocked_le htc hlk hf hb
            have ih' := ih (rem - it.cost) (spendUpdate spent it)
              (by rw [spendUpdate_self htc]; exact hle)
            rw [spendUpdate_self htc] at ih'
            rw [catSpend_cons_of_eq htc]
            linarith
          · have hne : truthyCat it.category ≠ some cat := by
              rw [htc]
              simp [Ne.symm hcc]
            have ih' := ih (rem - it.cost) (spendUpdate spent it)
              (by rw [spendUpdate_ne htc hcc]; exact h)
            rw [spendUpdate_ne htc hcc] at ih'
            rw [catSpend_cons_of_ne hne]
            exact ih'
      · rw [if_neg hcost]
        exact ih _ _ h

lemma constrainedKnapsack_greedy {items : List BItem} {B : ℚ}
    {cons : List (String × ℚ)} (h1 : cons ≠ [])
    (h2 : (knapsackOptimizer items B).selectedItems ≠ [])
    (h3 : constraintsSatisfied cons B
      (knapsackOptimizer items B).selectedItems = false) :
    constrainedKnapsack items B cons =
      ⟨(greedyGo cons B (List.insertionSort ratioRel items) B fun _ => 0).1,
        B - (greedyGo cons B (List.insertionSort ratioRel items) B fun _ => 0).2,
        ((greedyGo cons B (List.insertionSort ratioRel items) B
          fun _ => 0).1.map BItem.value).sum⟩ := by
  rw [constrainedKnapsack]
  rw [if_neg (by simp [h1, h2]), if_neg (by simp [h3])]

/-! ### Claim C5 -/

/-- **C5, counterexample.**  The greedy fallback enforces a cap only when
`item.category` is truthy, and the empty string is falsy in JS.  With
constraints `{food: 1/10, "": 1/10}` (both fractions in `(0,1]`) and
budget 10, the DP selection (the "food" item) violates the food cap, so
the greedy path runs — and admits the category-`""` item of cost 10 even
though the `""` cap is 1: the cap of a category present in the constraints
map is breached. -/
theorem C5_counterexample :
    (("", (1:ℚ)/10) ∈ ([("food", (1:ℚ)/10), ("", (1:ℚ)/10)] :
      List (String × ℚ))) ∧
    (0:ℚ) < 1/10 ∧ ((1:ℚ)/10) ≤ 1 ∧
    ([("food", (1:ℚ)/10), ("", (1:ℚ)/10)] : List (String × ℚ)) ≠ [] ∧
    (knapsackOptimizer [⟨10, 10, some "food"⟩, ⟨10, 1, some ""⟩]
      10).selectedItems ≠ [] ∧
    constraintsSatisfied [("food", 1/10), ("", 1/10)] 10
      (knapsackOptimizer [⟨10, 10, some "food"⟩, ⟨10, 1, some ""⟩]
        10).selectedItems = false ∧
    ¬ rawCatSpend (constrainedKnapsack [⟨10, 10, some "food"⟩, ⟨10, 1, some ""⟩]
        10 [("food", 1/10), ("", 1/10)]).selectedItems "" ≤ 10 * (1/10) := by
  refine ⟨by simp, by norm_num, by norm_num, by simp, ?_, ?_, ?_⟩
  · norm_num +decide [knapsackOptimizer, selectItems, selectGo, dpRow, dpStep,
      costCents, cents, costSum]
  · norm_num +decide [constraintsSatisfied, catSpend, truthyCat,
      knapsackOptimizer, selectItems, selectGo, dpRow, dpStep, costCents,
      cents, costSum]
  · have hck : constrainedKnapsack [⟨10, 10, some "food"⟩, ⟨10, 1, some ""⟩]
        10 [("food", 1/10), ("", 1/10)] = ⟨[⟨10, 1, some ""⟩], 10, 1⟩ := by
      norm_num +decide [constrainedKnapsack, constraintsSatisfied,
        knapsackOptimizer, selectItems, selectGo, dpRow, dpStep, costCents,
        cents, costSum, catSpend, truthyCat, List.insertionSort,
        List.orderedInsert, ratioRel, jsRatio, greedyGo, greedyBlocked,
        spendUpdate, List.lookup]
    rw [hck]
    norm_num +decide [rawCatSpend]

/-- **C5, amended.**  On the greedy fallback path, with every constraint
fraction in `(0,1]` and distinct constraint keys: every category of the
constraints map *with a non-empty name* has its selected spend within
`totalBudget * fraction` (the empty-string category is exempt because the
JS truthiness guard skips it); the returned `totalCost` never exceeds
`totalBudget`; and an item that would breach its cap is skipped while the
scan over the remaining items continues. -/
theorem C5_greedy_fallback (items : List BItem) (B : ℚ)
    (cons : List (String × ℚ)) (hpath1 : cons ≠ [])
    (hpath2 : (knapsackOptimizer items B).selectedItems ≠ [])
    (hpath3 : constraintsSatisfied cons B
      (knapsackOptimizer items B).selectedItems = false)
    (hf : ∀ cf ∈ cons, 0 < cf.2 ∧ cf.2 ≤ 1)
    (hkeys : (cons.map Prod.fst).Nodup) :
    (∀ cat fr, (cat, fr) ∈ cons → cat ≠ "" →
      rawCatSpend (constrainedKnapsack items B cons).selectedItems cat ≤
        B * fr) ∧
    (constrainedKnapsack items B cons).totalCost ≤ B ∧
    (∀ (it : BItem) (rest : List BItem) (rem : ℚ) (spent : String → ℚ),
      greedyBlocked cons B spent it = true →
      greedyGo cons B (it :: rest) rem spent =
        greedyGo cons B rest rem spent) := by
  have hB : 0 < B := knapsackOptimizer_pos_budget hpath2
  rw [constrainedKnapsack_greedy hpath1 hpath2 hpath3]
  refine ⟨?_, ?_, ?_⟩
  · intro cat fr hm hne
    have hlk := lookup_of_mem_nodup cons cat fr hkeys hm
    have hfr := hf (cat, fr) hm
    show rawCatSpend
      (greedyGo cons B (List.insertionSort ratioRel items) B fun _ => 0).1
      cat ≤ B * fr
    rw [← catSpend_eq_rawCatSpend _ hne]
    have h0 : (fun _ => (0:ℚ)) cat ≤ B * fr := by
      have : (0:ℚ) ≤ B * fr := mul_nonneg hB.le hfr.1.le
      simpa using this
    have := greedyGo_cat_bound cons B hlk (ne_of_gt hfr.1)
      (List.insertionSort ratioRel items) B (fun _ => 0) h0
    simpa using this
  · show B - (greedyGo cons B (List.insertionSort ratioRel items) B
      fun _ => 0).2 ≤ B
    have := greedyGo_rem_nonneg cons B (List.insertionSort ratioRel items) B
      (fun _ => 0) hB.le
    linarith
  · intro it rest rem spent hbl
    rw [greedyGo, if_pos hbl]

/-- **C5, witness.**  Scenario B of the spec scaled into sub-cent-free
rationals: budget `7/100`, three "food" items, constraint `{food: 1/2}`.
The DP optimum spends `7/100` on food, violating the cap `7/200`, so the
greedy path runs and keeps the food spend and total cost within bounds. -/
theorem C5_greedy_fallback_witness :
    rawCatSpend (constrainedKnapsack
      [⟨5/100, 6, some "food"⟩, ⟨3/100, 5, some "food"⟩,
        ⟨2/100, 4, some "food"⟩] (7/100)
      [("food", 1/2)]).selectedItems "food" ≤ (7/100) * (1/2) ∧
    (constrainedKnapsack
      [⟨5/100, 6, some "food"⟩, ⟨3/100, 5, some "food"⟩,
        ⟨2/100, 4, some "food"⟩] (7/100) [("food", 1/2)]).totalCost ≤ 7/100 := by
  have h := C5_greedy_fallback
    [⟨5/100, 6, some "food"⟩, ⟨3/100, 5, some "food"⟩, ⟨2/100, 4, some "food"⟩]
    (7/100) [("food", 1/2)]
    (by simp)
    (by norm_num +decide [knapsackOptimizer, selectItems, selectGo, dpRow,
      dpStep, costCents, cents, costSum])
    (by norm_num +decide [constraintsSatisfied, catSpend, truthyCat,
      knapsackOptimizer, selectItems, selectGo, dpRow, dpStep, costCents,
      cents, costSum])
    (by intro cf hcf; fin_cases hcf; constructor <;> norm_num)
    (by simp)
  exact ⟨h.1 "food" (1/2) (by simp) (by decide), h.2.1⟩

/-! ### Claim C6 -/

/-- **C6, confirmed.**  An empty constraints map returns exactly the DP
result; and whenever every constrained category's spend among the
DP-selected items is within `totalBudget * fraction`, the DP result is
returned unchanged (costs non-negative per the data model). -/
theorem C6_constraint_filter (items : List BItem) (totalBudget : ℚ)
    (cons : List (String × ℚ)) (hc : ∀ it ∈ items, 0 ≤ it.cost) :
    constrainedKnapsack items totalBudget [] =
      knapsackOptimizer items totalBudget ∧
    ((∀ cf ∈ cons,
        rawCatSpend (knapsackOptimizer items totalBudget).selectedItems cf.1 ≤
          totalBudget * cf.2) →
      constrainedKnapsack items totalBudget cons =
        knapsackOptimizer items totalBudget) := by
  constructor
  · rw [constrainedKnapsack, if_pos (Or.inl rfl)]
  · intro h
    rw [constrainedKnapsack]
    by_cases hsel : (knapsackOptimizer items totalBudget).selectedItems = []
    · rw [if_pos (Or.inr hsel)]
    · by_cases hnil : cons = []
      · rw [if_pos (Or.inl hnil)]
      · rw [if_neg (by simp [hnil, hsel])]
        have hsat : constraintsSatisfied cons totalBudget
            (knapsackOptimizer items totalBudget).selectedItems = true := by
          rw [constraintsSatisfied, List.all_eq_true]
          intro cf hcf
          rw [decide_eq_true_eq]
          by_cases hstr : cf.1 = ""
          · rw [hstr, catSpend_empty_str]
            have hnn : 0 ≤ rawCatSpend
                (knapsackOptimizer items totalBudget).selectedItems cf.1 :=
              rawCatSpend_nonneg
                (fun it hit => hc it (knapsackOptimizer_selected_mem it hit)) _
            have := h cf hcf
            linarith
          · rw [catSpend_eq_rawCatSpend _ hstr]
            exact h cf hcf
        rw [if_pos hsat]

/-- **C6, witness.**  One item of category `"a"`, budget 2, constraint
`{a: 1}`: the DP spend (1) is within the cap (2), so both paths return
the DP result. -/
theorem C6_constraint_filter_witness :
    constrainedKnapsack [⟨1, 2, some "a"⟩] 2 [] =
      knapsackOptimizer [⟨1, 2, some "a"⟩] 2 ∧
    constrainedKnapsack [⟨1, 2, some "a"⟩] 2 [("a", 1)] =
      knapsackOptimizer [⟨1, 2, some "a"⟩] 2 := by
  have h := C6_constraint_filter [⟨1, 2, some "a"⟩] 2 [("a", 1)]
    (by intro it hit; fin_cases hit; norm_num)
  refine ⟨h.1, h.2 ?_⟩
  intro cf hcf
  fin_cases hcf
  have hk : knapsackOptimizer [⟨1, 2, some "a"⟩] 2 =
      ⟨[⟨1, 2, some "a"⟩], 1, 2⟩ := by
    norm_num +decide [knapsackOptimizer, selectItems, selectGo, dpRow, dpStep,
      costCents, cents, costSum]
  rw [hk]
  norm_num +decide [rawCatSpend]

/-! ### Claim C7 -/

/-- **C7, confirmed** (extensionally).  The embedded ratio is total: a
zero-cost item's ratio is the infinite value `⊤` (JS `value/0 =
Infinity`), a positive-cost item's ratio is the finite `value/cost`, and
in the greedy admission order produced by the ratio sort every zero-cost
item precedes every positive-cost item.  The hypothesis restricts to the
data-model domain (`0 ≤ cost`, `0 < value`) on which the `WithTop ℚ`
model of JS division is faithful. -/
theorem C7_zero_cost_first (items : List BItem)
    (_hdom : ∀ it ∈ items, 0 ≤ it.cost ∧ 0 < it.value) :
    (∀ it : BItem, it.cost = 0 → jsRatio it = ⊤) ∧
    (∀ it : BItem, it.cost ≠ 0 →
      jsRatio it = ((it.value / it.cost : ℚ) : WithTop ℚ)) ∧
    (List.insertionSort ratioRel items).Pairwise
      (fun a b => b.cost = 0 → a.cost = 0) := by
  refine ⟨fun it hc => by rw [jsRatio, if_pos hc],
    fun it hc => by rw [jsRatio, if_neg hc], ?_⟩
  have hs := List.sorted_insertionSort ratioRel items
  refine hs.imp ?_
  intro a b hab hb0
  have hbtop : jsRatio b = ⊤ := by rw [jsRatio, if_pos hb0]
  rw [ratioRel, hbtop] at hab
  have ha : jsRatio a = ⊤ := top_le_iff.mp hab
  by_contra hne
  rw [jsRatio, if_neg hne] at ha
  exact WithTop.coe_ne_top ha

/-- **C7, witness.**  A zero-cost item and a positive-cost item: the
zero-cost one sorts first. -/
theorem C7_zero_cost_first_witness :
    (∀ it : BItem, it.cost = 0 → jsRatio it = ⊤) ∧
    (∀ it : BItem, it.cost ≠ 0 →
      jsRatio it = ((it.value / it.cost : ℚ) : WithTop ℚ)) ∧
    (List.insertionSort ratioRel [⟨0, 5, none⟩, ⟨2, 4, none⟩]).Pairwise
      (fun a b => b.cost = 0 → a.cost = 0) :=
  C7_zero_cost_first [⟨0, 5, none⟩, ⟨2, 4, none⟩]
    (by intro it hit; fin_cases hit <;> constructor <;> norm_num)

/-! ### Claim C8 -/

/-- **C8, confirmed.**  Missing/empty items or a non-positive budget give
the defined empty result, not an error. -/
theorem C8_empty_result (items : List BItem) (totalBudget : ℚ)
    (h : items = [] ∨ totalBudget ≤ 0) :
    knapsackOptimizer items totalBudget = ⟨[], 0, 0⟩ := by
  rw [knapsackOptimizer, if_pos h]

/-- **C8, witness.**  Budget `0` with a non-empty item list. -/
theorem C8_empty_result_witness :
    knapsackOptimizer [⟨5, 3, none⟩] 0 = ⟨[], 0, 0⟩ :=
  C8_empty_result [⟨5, 3, none⟩] 0 (Or.inr (le_refl 0))

/-! ### Claim C9 -/

/-- **C9, code bug.**  `knapsackOptimizer` has no bound on the discretized
budget and no error channel at all: at `totalBudget = 10^9` (budget-cents
`10^11`, far beyond any DP table that fits in memory) it still produces
the plain, normal result instead of a typed error signal. -/
theorem C9_no_resource_bound :
    knapsackOptimizer [⟨1, 5, none⟩] 1000000000 = ⟨[⟨1, 5, none⟩], 1, 5⟩ := by
  norm_num [knapsackOptimizer, selectItems, selectGo, dpRow, dpStep, costCents,
    cents, costSum]

end SmartScheduler
